import Mathlib

/-!
Verification of the melonJS numeric utility module (`math.js`) and the
input aggregation module (`input.js`).

JavaScript numbers are modelled as rational numbers (`Rat`); the bitwise
operators used by the source (`~~`, `&`, `|`, `>>`) are modelled by the
ECMAScript `ToInt32`/`ToUint32` conversions: truncation toward zero
followed by reduction modulo 2^32 into the signed 32-bit range.
-/

namespace MelonJS

unseal Rat.mul Rat.add Rat.sub Rat.inv

/-- Truncation of a rational toward zero, as in ECMAScript `ToIntegerOrInfinity`. -/
def ratTrunc (q : Rat) : Int := q.num.tdiv q.den

/-- Reinterpret a 32-bit pattern `m` (`0 ≤ m < 2^32`) as a signed 32-bit integer. -/
def ofUint32 (m : Nat) : Int :=
  if m < 2147483648 then (m : Int) else (m : Int) - 4294967296

/-- The low 32 bits of an integer, as in ECMAScript `ToUint32`. -/
def toUint32 (n : Int) : Nat := (Int.emod n 4294967296).toNat

/-- ECMAScript `ToInt32` applied to a number; this is also the value of
the double bitwise-not idiom `~~x` used by the source. -/
def jsToInt32 (q : Rat) : Int := ofUint32 (toUint32 (ratTrunc q))

/-- JavaScript bitwise AND (`a & b`) on numbers. -/
def jsAnd (a b : Rat) : Rat :=
  (ofUint32 (Nat.land (toUint32 (ratTrunc a)) (toUint32 (ratTrunc b))) : Int)

/-- JavaScript bitwise OR (`a | b`) on numbers. -/
def jsOr (a b : Rat) : Rat :=
  (ofUint32 (Nat.lor (toUint32 (ratTrunc a)) (toUint32 (ratTrunc b))) : Int)

/-- JavaScript sign-propagating right shift (`a >> b`) on numbers;
an arithmetic shift of the 32-bit value is floor division by a power of two. -/
def jsShr (a b : Rat) : Rat :=
  (Int.fdiv (jsToInt32 a) (2 ^ (toUint32 (ratTrunc b) % 32)) : Int)

/-- `isPowerOfTwo` from `math.js`: `return (val & (val - 1)) === 0;`. -/
def isPowerOfTwo (val : Rat) : Bool :=
  jsAnd val (val - 1) == 0

/-- `isPowerOfFour` from `math.js`; `2863311530` is the odd-bit mask `0xaaaaaaaa`. -/
def isPowerOfFour (val : Rat) : Bool :=
  if val == 0 || val == 2 || val == 3 then false
  else if val == 1 then true
  else if jsAnd val (val - 1) == 0 then
    if jsAnd val 2863311530 == 0 then true else false
  else false

/-- `nextPowerOfTwo` from `math.js`: decrement, OR-shift right by
1, 2, 4, 8, 16, increment. -/
def nextPowerOfTwo (val : Rat) : Rat :=
  let v1 := val - 1
  let v2 := jsOr v1 (jsShr v1 1)
  let v3 := jsOr v2 (jsShr v2 2)
  let v4 := jsOr v3 (jsShr v3 4)
  let v5 := jsOr v4 (jsShr v4 8)
  let v6 := jsOr v5 (jsShr v5 16)
  v6 + 1

/-- `clamp` from `math.js`: `val < low ? low : val > high ? high : +val`. -/
def clamp (val low high : Rat) : Rat :=
  if val < low then low else if val > high then high else val

/-- `random` from `math.js`: `~~(Math.random() * (max - min)) + min`,
with the ambient uniform sample `Math.random()` passed explicitly as `r`. -/
def random (r : Rat) (min max : Rat) : Rat :=
  (jsToInt32 (r * (max - min)) : Int) + min

/-- `round` from `math.js`: `~~(0.5 + num * powres) / powres` with
`powres = Math.pow(10, dec)`. -/
def round (num : Rat) (dec : Nat) : Rat :=
  let powres : Rat := 10 ^ dec
  ((jsToInt32 (1/2 + num * powres) : Int) : Rat) / powres

/-- `toBeCloseTo` from `math.js`:
`Math.abs(expected - actual) < Math.pow(10, -precision) / 2`. -/
def toBeCloseTo (expected actual : Rat) (precision : Int) : Bool :=
  decide (|expected - actual| < (10 : Rat) ^ (-precision) / 2)

/-- The OR-shift cascade of `nextPowerOfTwo`, restated on the underlying
machine word; used to analyse `nextPowerOfTwo`. -/
def natSmear (x : Nat) : Nat :=
  let x1 := Nat.lor x (x >>> 1)
  let x2 := Nat.lor x1 (x1 >>> 2)
  let x3 := Nat.lor x2 (x2 >>> 4)
  let x4 := Nat.lor x3 (x3 >>> 8)
  Nat.lor x4 (x4 >>> 16)

/-- The mutable module-level state of `input.js`. -/
structure InputModuleState where
  preventDefault : Bool

/-- The state of `input.js` at module load:
`export let preventDefault = true;`. -/
def inputModuleInit : InputModuleState :=
  { preventDefault := true }

/-! ### Bitwise helper lemmas -/

theorem land_testBit (a b i : Nat) :
    (Nat.land a b).testBit i = (a.testBit i && b.testBit i) :=
  Nat.testBit_and a b i

theorem land_self_eq (a : Nat) : Nat.land a a = a := by
  apply Nat.eq_of_testBit_eq
  intro i
  simp [land_testBit]

theorem zero_land_eq (a : Nat) : Nat.land 0 a = 0 := by
  apply Nat.eq_of_testBit_eq
  intro i
  simp [land_testBit]

theorem land_eq_hand (a b : Nat) : Nat.land a b = a &&& b := rfl

theorem land_even_odd (a b : Nat) :
    Nat.land (2 * a) (2 * b + 1) = 2 * Nat.land a b := by
  apply Nat.eq_of_testBit_eq
  intro i
  cases i with
  | zero =>
    rw [land_testBit]
    simp [Nat.testBit_zero, Nat.mul_mod_right, Nat.mul_add_mod]
  | succ i =>
    rw [land_testBit, Nat.testBit_succ, Nat.testBit_succ, Nat.testBit_succ,
      Nat.mul_div_cancel_left _ (by norm_num : 0 < 2),
      Nat.mul_add_div (by norm_num : 0 < 2),
      Nat.mul_div_cancel_left _ (by norm_num : 0 < 2),
      land_testBit]
    norm_num

theorem land_odd_even (a b : Nat) :
    Nat.land (2 * a + 1) (2 * b) = 2 * Nat.land a b := by
  apply Nat.eq_of_testBit_eq
  intro i
  cases i with
  | zero =>
    rw [land_testBit]
    simp [Nat.testBit_zero, Nat.mul_mod_right, Nat.mul_add_mod]
  | succ i =>
    rw [land_testBit, Nat.testBit_succ, Nat.testBit_succ, Nat.testBit_succ,
      Nat.mul_div_cancel_left _ (by norm_num : 0 < 2),
      Nat.mul_add_div (by norm_num : 0 < 2),
      Nat.mul_div_cancel_left _ (by norm_num : 0 < 2),
      land_testBit]
    norm_num

/-- A positive natural number shares no set bit with its predecessor exactly
when it is a power of two; zero also satisfies the bit identity. -/
theorem land_pred_eq_zero_iff (n : Nat) :
    Nat.land n (n - 1) = 0 ↔ n = 0 ∨ ∃ k : Nat, n = 2 ^ k := by
  induction n using Nat.strong_induction_on with
  | _ n ih =>
    rcases Nat.even_or_odd n with ⟨m, hm⟩ | ⟨m, hm⟩
    · rcases Nat.eq_zero_or_pos m with hm0 | hm0
      · rw [show n = 0 by omega]
        exact ⟨fun _ => Or.inl rfl, fun _ => by decide⟩
      · have hrw : n - 1 = 2 * (m - 1) + 1 := by omega
        have hn2 : n = 2 * m := by omega
        rw [hrw, hn2, land_even_odd]
        have hmlt : m < n := by omega
        constructor
        · intro h
          have h0 : Nat.land m (m - 1) = 0 := by omega
          rcases (ih m hmlt).mp h0 with h1 | ⟨k, hk⟩
          · omega
          · exact Or.inr ⟨k + 1, by rw [pow_succ]; omega⟩
        · rintro (h | ⟨k, hk⟩)
          · omega
          · match k with
            | 0 => omega
            | k + 1 =>
              have hmk : m = 2 ^ k := by rw [pow_succ] at hk; omega
              have h0 : Nat.land m (m - 1) = 0 :=
                (ih m hmlt).mpr (Or.inr ⟨k, hmk⟩)
              omega
    · rcases Nat.eq_zero_or_pos m with hm0 | hm0
      · subst hm
        rw [hm0]
        constructor
        · intro _
          exact Or.inr ⟨0, rfl⟩
        · intro _
          decide
      · have hrw : n - 1 = 2 * m := by omega
        rw [hrw, hm, land_odd_even, land_self_eq]
        constructor
        · intro h
          omega
        · rintro (h | ⟨k, hk⟩)
          · omega
          · exfalso
            match k with
            | 0 => omega
            | k + 1 =>
              rw [pow_succ] at hk
              omega

/-! ### Conversion lemmas between the rational model and machine integers -/

theorem ratTrunc_intCast (n : Int) : ratTrunc (n : Rat) = n := by
  simp [ratTrunc, Rat.num_intCast, Rat.den_intCast, Int.tdiv_one]

theorem toUint32_lt (n : Int) : toUint32 n < 4294967296 := by
  unfold toUint32
  rw [show Int.emod n 4294967296 = n % 4294967296 from rfl]
  omega

theorem toUint32_small {n : Int} (h0 : 0 ≤ n) (h1 : n < 4294967296) :
    toUint32 n = n.toNat := by
  unfold toUint32
  rw [show Int.emod n 4294967296 = n % 4294967296 from rfl, Int.emod_eq_of_lt h0 h1]

theorem ofUint32_eq_zero_iff {m : Nat} (h : m < 4294967296) :
    ofUint32 m = 0 ↔ m = 0 := by
  unfold ofUint32
  split <;> omega

theorem land_lt (a b : Nat) (h : b < 4294967296) : Nat.land a b < 4294967296 := by
  rw [land_eq_hand, show (4294967296 : Nat) = 2 ^ 32 by norm_num] at *
  exact Nat.and_lt_two_pow a h

theorem isPowerOfTwo_iff_land (v : Int) :
    isPowerOfTwo (v : Rat) = true ↔
      Nat.land (toUint32 v) (toUint32 (v - 1)) = 0 := by
  unfold isPowerOfTwo jsAnd
  rw [show ((v : Rat) - 1) = ((v - 1 : Int) : Rat) by push_cast; ring]
  rw [ratTrunc_intCast, ratTrunc_intCast, beq_iff_eq]
  rw [show ((0 : Rat) = ((0 : Int) : Rat)) by norm_num]
  rw [Int.cast_inj]
  exact ofUint32_eq_zero_iff (land_lt _ _ (toUint32_lt _))

/-- Characterization of `isPowerOfTwo` on 32-bit-representable values. -/
theorem isPowerOfTwo_char (v : Int) (h0 : 0 ≤ v) (h1 : v < 4294967296) :
    (isPowerOfTwo (v : Rat) = true ↔ v = 0 ∨ ∃ k < 32, v = 2 ^ k) := by
  rw [isPowerOfTwo_iff_land]
  rcases eq_or_lt_of_le h0 with h00 | hpos
  · rw [← h00]
    simp [toUint32_small, zero_land_eq]
  · rw [toUint32_small h0 h1, toUint32_small (by omega) (by omega)]
    rw [show (v - 1).toNat = v.toNat - 1 by omega]
    rw [land_pred_eq_zero_iff]
    constructor
    · rintro (h | ⟨k, hk⟩)
      · omega
      · right
        have hcast : ((2 ^ k : Nat) : Int) = (2 : Int) ^ k := by push_cast; ring
        refine ⟨k, ?_, ?_⟩
        · by_contra hk32
          have : (2 : Nat) ^ 32 ≤ 2 ^ k :=
            Nat.pow_le_pow_right (by norm_num) (by omega)
          omega
        · omega
    · rintro (h | ⟨k, hk32, hk⟩)
      · omega
      · right
        have hcast : ((2 ^ k : Nat) : Int) = (2 : Int) ^ k := by push_cast; ring
        exact ⟨k, by omega⟩

/-- `isPowerOfTwo` is true on every exact power of two, including those whose
low 32 bits are zero after wrapping. -/
theorem isPowerOfTwo_pow (k : Nat) : isPowerOfTwo (((2 : Int) ^ k : Int) : Rat) = true := by
  rcases lt_or_ge k 32 with hk | hk
  · have hlt : (2 : Int) ^ k < 4294967296 := by
      have hnat : (2 : Nat) ^ k < 2 ^ 32 :=
        (Nat.pow_lt_pow_iff_right (by norm_num)).2 hk
      have hcast : ((2 ^ k : Nat) : Int) = (2 : Int) ^ k := by push_cast; ring
      omega
    exact (isPowerOfTwo_char ((2 : Int) ^ k) (by positivity) hlt).mpr
      (Or.inr ⟨k, hk, rfl⟩)
  · rw [isPowerOfTwo_iff_land]
    have hz : toUint32 ((2 : Int) ^ k) = 0 := by
      unfold toUint32
      rw [show Int.emod ((2 : Int) ^ k) 4294967296 = ((2 : Int) ^ k) % 4294967296 from rfl]
      rw [Int.emod_eq_zero_of_dvd]
      · rfl
      · rw [show (4294967296 : Int) = 2 ^ 32 by norm_num]
        exact pow_dvd_pow 2 hk
    rw [hz, zero_land_eq]

theorem land_two_pow_eq_zero_iff (j m : Nat) :
    Nat.land (2 ^ j) m = 0 ↔ m.testBit j = false := by
  constructor
  · intro h
    have h2 := congrArg (Nat.testBit · j) h
    simpa [land_testBit, Nat.testBit_two_pow_self, Nat.zero_testBit] using h2
  · intro h
    apply Nat.eq_of_testBit_eq
    intro i
    rw [land_testBit, Nat.zero_testBit]
    rcases eq_or_ne j i with rfl | hne
    · simp [h]
    · simp [Nat.testBit_two_pow_of_ne hne]

/-- Bits of the odd-bit mask `0xaaaaaaaa` below position 32. -/
theorem mask_testBit (k : Nat) (hk : k < 32) :
    (2863311530 : Nat).testBit k = decide (k % 2 = 1) := by
  interval_cases k <;> decide

theorem int_four_pow_cases (j : Nat) : (4 : Int) ^ j = 1 ∨ 4 ≤ (4 : Int) ^ j := by
  have hcast : ((4 ^ j : Nat) : Int) = (4 : Int) ^ j := by push_cast; ring
  cases j with
  | zero => left; norm_num
  | succ j =>
    right
    have hcast' : ((4 ^ (j + 1) : Nat) : Int) = (4 : Int) ^ (j + 1) := by push_cast; ring
    have h4 : (4 : Nat) ≤ 4 ^ (j + 1) := by
      calc (4 : Nat) = 4 ^ 1 := by norm_num
        _ ≤ 4 ^ (j + 1) := Nat.pow_le_pow_right (by norm_num) (by omega)
    omega

/-- Unfolding of the nested conditionals of `isPowerOfFour` to a flat condition. -/
theorem isPowerOfFour_true_iff (val : Rat) :
    isPowerOfFour val = true ↔
      val ≠ 0 ∧ val ≠ 2 ∧ val ≠ 3 ∧
        (val = 1 ∨ (jsAnd val (val - 1) = 0 ∧ jsAnd val 2863311530 = 0)) := by
  unfold isPowerOfFour
  by_cases h0 : val = 0 <;> by_cases h2 : val = 2 <;> by_cases h3 : val = 3 <;>
    by_cases h1 : val = 1 <;>
    by_cases hA : jsAnd val (val - 1) = 0 <;>
    by_cases hB : jsAnd val 2863311530 = 0 <;>
    simp [h0, h1, h2, h3, hA, hB, beq_iff_eq]

theorem jsAnd_mask_two_pow (k : Nat) (hk : k < 32) :
    jsAnd (((2 : Int) ^ k : Int) : Rat) 2863311530 = 0 ↔ k % 2 = 0 := by
  have hcast : ((2 ^ k : Nat) : Int) = (2 : Int) ^ k := by push_cast; ring
  have hb : (2 : Nat) ^ k < 2 ^ 32 := (Nat.pow_lt_pow_iff_right (by norm_num)).2 hk
  unfold jsAnd
  rw [show (2863311530 : Rat) = ((2863311530 : Int) : Rat) by norm_num]
  rw [ratTrunc_intCast, ratTrunc_intCast]
  rw [toUint32_small (by positivity) (by omega)]
  rw [toUint32_small (by norm_num) (by norm_num)]
  rw [show ((2 : Int) ^ k).toNat = 2 ^ k by rw [← hcast]; exact Int.toNat_ofNat _]
  rw [show (2863311530 : Int).toNat = 2863311530 from rfl]
  rw [show ((0 : Rat) = ((0 : Int) : Rat)) by norm_num, Int.cast_inj]
  rw [ofUint32_eq_zero_iff (land_lt _ _ (by norm_num))]
  rw [land_two_pow_eq_zero_iff, mask_testBit k hk]
  simp

/-- Characterization of `isPowerOfFour` on 32-bit-representable values. -/
theorem isPowerOfFour_char (v : Int) (h0 : 0 ≤ v) (h1 : v < 4294967296) :
    (isPowerOfFour (v : Rat) = true ↔ ∃ k : Nat, v = 4 ^ k) := by
  by_cases hv0 : v = 0
  · subst hv0
    constructor
    · intro h
      rw [isPowerOfFour_true_iff] at h
      simp at h
    · rintro ⟨k, hk⟩
      exfalso
      have : (0 : Int) < 4 ^ k := by positivity
      omega
  · by_cases hv1 : v = 1
    · subst hv1
      exact ⟨fun _ => ⟨0, by norm_num⟩, fun _ => by decide⟩
    · by_cases hv2 : v = 2
      · subst hv2
        constructor
        · intro h
          rw [show ((2 : Int) : Rat) = (2 : Rat) by norm_num] at h
          rw [show isPowerOfFour (2 : Rat) = false from by decide] at h
          simp at h
        · rintro ⟨k, hk⟩
          rcases int_four_pow_cases k with h | h <;> omega
      · by_cases hv3 : v = 3
        · subst hv3
          constructor
          · intro h
            rw [show ((3 : Int) : Rat) = (3 : Rat) by norm_num] at h
            rw [show isPowerOfFour (3 : Rat) = false from by decide] at h
            simp at h
          · rintro ⟨k, hk⟩
            rcases int_four_pow_cases k with h | h <;> omega
        · have hv4 : 4 ≤ v := by omega
          rw [isPowerOfFour_true_iff]
          have hA : (jsAnd (v : Rat) ((v : Rat) - 1) = 0) ↔
              (v = 0 ∨ ∃ k < 32, v = 2 ^ k) := by
            have hchar := isPowerOfTwo_char v h0 h1
            rw [show isPowerOfTwo (v : Rat) =
              (jsAnd (v : Rat) ((v : Rat) - 1) == 0) from rfl, beq_iff_eq] at hchar
            exact hchar
          constructor
          · rintro ⟨-, -, -, hone | ⟨hA', hB'⟩⟩
            · exfalso
              apply hv1
              exact_mod_cast hone
            · rcases hA.mp hA' with h | ⟨k, hk32, hk⟩
              · omega
              · subst hk
                have hke := (jsAnd_mask_two_pow k hk32).mp hB'
                obtain ⟨j, hj⟩ : ∃ j, k = 2 * j := ⟨k / 2, by omega⟩
                subst hj
                exact ⟨j, by rw [pow_mul]; norm_num⟩
          · rintro ⟨j, rfl⟩
            have hpow : (4 : Int) ^ j = (2 : Int) ^ (2 * j) := by
              rw [pow_mul]; norm_num
            have hcast : ((4 ^ j : Nat) : Int) = (4 : Int) ^ j := by push_cast; ring
            have hjlt : 2 * j < 32 := by
              by_contra hc
              have h16 : (4 : Nat) ^ 16 ≤ 4 ^ j :=
                Nat.pow_le_pow_right (by norm_num) (by omega)
              have : (4 : Nat) ^ 16 = 4294967296 := by norm_num
              omega
            have hne0 : (((4 : Int) ^ j : Int) : Rat) ≠ 0 := by
              have : (0 : Int) < 4 ^ j := by positivity
              exact_mod_cast (by omega : (4 : Int) ^ j ≠ 0)
            have h14 := int_four_pow_cases j
            refine ⟨hne0, ?_, ?_, ?_⟩
            · exact_mod_cast (by omega : (4 : Int) ^ j ≠ 2)
            · exact_mod_cast (by omega : (4 : Int) ^ j ≠ 3)
            · rcases h14 with hone | hge
              · left
                exact_mod_cast (by omega : (4 : Int) ^ j = 1)
              · right
                constructor
                · apply hA.mpr
                  exact Or.inr ⟨2 * j, hjlt, hpow⟩
                · rw [show (((4 : Int) ^ j : Int) : Rat) =
                    (((2 : Int) ^ (2 * j) : Int) : Rat) by rw [hpow]]
                  exact (jsAnd_mask_two_pow (2 * j) hjlt).mpr (by omega)

theorem ratTrunc_eq_floor {q : Rat} (h : 0 ≤ q) : ratTrunc q = ⌊q⌋ := by
  unfold ratTrunc
  rw [Rat.floor_def]
  exact Int.tdiv_eq_ediv (Rat.num_nonneg.mpr h) (Int.natCast_nonneg _)

/-- On nonnegative inputs whose floor fits in 31 bits, the `~~` idiom is
the mathematical floor. -/
theorem jsToInt32_small {q : Rat} (h0 : 0 ≤ q) (h1 : ⌊q⌋ < 2147483648) :
    jsToInt32 q = ⌊q⌋ := by
  have hnn := Int.floor_nonneg.mpr h0
  unfold jsToInt32
  rw [ratTrunc_eq_floor h0]
  rw [toUint32_small hnn (by omega)]
  unfold ofUint32
  split <;> omega

/-! ### The bit-smearing cascade of `nextPowerOfTwo` -/

theorem lor_shift_testBit (y s j : Nat) :
    (Nat.lor y (y >>> s)).testBit j = (y.testBit j || y.testBit (j + s)) := by
  rw [show Nat.lor y (y >>> s) = y ||| (y >>> s) from rfl]
  rw [Nat.testBit_or, Nat.testBit_shiftRight, Nat.add_comm s j]

theorem stage_testBit {x y : Nat} (m : Nat)
    (hy : ∀ j, y.testBit j = true ↔ ∃ d < m, x.testBit (j + d) = true) :
    ∀ j, (Nat.lor y (y >>> m)).testBit j = true ↔
      ∃ d < 2 * m, x.testBit (j + d) = true := by
  intro j
  rw [lor_shift_testBit, Bool.or_eq_true, hy j, hy (j + m)]
  constructor
  · rintro (⟨d, hd, h⟩ | ⟨d, hd, h⟩)
    · exact ⟨d, by omega, h⟩
    · exact ⟨m + d, by omega, by rw [show j + (m + d) = j + m + d by omega]; exact h⟩
  · rintro ⟨d, hd, h⟩
    rcases lt_or_ge d m with hdm | hdm
    · exact Or.inl ⟨d, hdm, h⟩
    · exact Or.inr ⟨d - m, by omega,
        by rw [show j + m + (d - m) = j + d by omega]; exact h⟩

theorem natSmear_testBit (x j : Nat) :
    (natSmear x).testBit j = true ↔ ∃ d < 32, x.testBit (j + d) = true := by
  have h1 : ∀ j, x.testBit j = true ↔ ∃ d < 1, x.testBit (j + d) = true := by
    intro i
    constructor
    · intro h
      exact ⟨0, by omega, by simpa using h⟩
    · rintro ⟨d, hd, h⟩
      have hd0 : d = 0 := by omega
      subst hd0
      simpa using h
  have h2 := stage_testBit 1 h1
  have h4 := stage_testBit 2 h2
  have h8 := stage_testBit 4 h4
  have h16 := stage_testBit 8 h8
  have h32 := stage_testBit 16 h16
  exact h32 j

/-- The most significant bit of a positive number is set. -/
theorem testBit_size_pred {x : Nat} (hx : 0 < x) :
    x.testBit (Nat.size x - 1) = true := by
  have h1 : x < 2 ^ Nat.size x := Nat.lt_size_self x
  have hs : 0 < Nat.size x := Nat.size_pos.mpr hx
  have h2 : 2 ^ (Nat.size x - 1) ≤ x := Nat.lt_size.mp (by omega)
  have hpow : 2 ^ Nat.size x = 2 ^ (Nat.size x - 1) * 2 := by
    rw [← pow_succ]
    congr 1
    omega
  have hdiv : x / 2 ^ (Nat.size x - 1) = 1 :=
    Nat.div_eq_of_lt_le (by omega) (by omega)
  rw [Nat.testBit_to_div_mod, hdiv]
  decide

theorem natSmear_eq {x : Nat} (hx : x < 2 ^ 32) :
    natSmear x = 2 ^ Nat.size x - 1 := by
  apply Nat.eq_of_testBit_eq
  intro j
  rw [Nat.testBit_two_pow_sub_one]
  have hsize : Nat.size x ≤ 32 := Nat.size_le.mpr hx
  rcases Nat.eq_zero_or_pos x with rfl | hxpos
  · rw [show natSmear 0 = 0 from by decide]
    simp [Nat.size_zero]
  · rcases lt_or_ge j (Nat.size x) with hj | hj
    · have hbit : (natSmear x).testBit j = true :=
        (natSmear_testBit x j).mpr ⟨Nat.size x - 1 - j, by omega,
          by rw [show j + (Nat.size x - 1 - j) = Nat.size x - 1 by omega]
             exact testBit_size_pred hxpos⟩
      rw [hbit, decide_eq_true hj]
    · have hfalse : ¬ (natSmear x).testBit j = true := by
        rw [natSmear_testBit]
        rintro ⟨d, hd, h⟩
        have hxlt : x < 2 ^ (j + d) :=
          lt_of_lt_of_le (Nat.lt_size_self x)
            (Nat.pow_le_pow_right (by norm_num) (by omega))
        rw [Nat.testBit_lt_two_pow hxlt] at h
        cases h
      rw [Bool.not_eq_true] at hfalse
      rw [hfalse, decide_eq_false (by omega)]

theorem lor_lt_two_pow_31 {a b : Nat} (ha : a < 2147483648) (hb : b < 2147483648) :
    Nat.lor a b < 2147483648 := by
  rw [show (2147483648 : Nat) = 2 ^ 31 by norm_num] at *
  exact Nat.bitwise_lt_two_pow ha hb

theorem jsOr_natCast (a b : Nat) (ha : a < 2147483648) (hb : b < 2147483648) :
    jsOr ((a : Int) : Rat) ((b : Int) : Rat) = (((Nat.lor a b : Nat) : Int) : Rat) := by
  unfold jsOr
  rw [ratTrunc_intCast, ratTrunc_intCast]
  rw [toUint32_small (Int.natCast_nonneg a) (by exact_mod_cast (by omega : a < 4294967296))]
  rw [toUint32_small (Int.natCast_nonneg b) (by exact_mod_cast (by omega : b < 4294967296))]
  rw [Int.toNat_ofNat, Int.toNat_ofNat]
  unfold ofUint32
  rw [if_pos (lor_lt_two_pow_31 ha hb)]

theorem jsShr_natCast (a s : Nat) (ha : a < 2147483648) (hs : s < 32) :
    jsShr ((a : Int) : Rat) ((s : Int) : Rat) = (((a >>> s : Nat) : Int) : Rat) := by
  unfold jsShr jsToInt32
  rw [ratTrunc_intCast, ratTrunc_intCast]
  rw [toUint32_small (Int.natCast_nonneg a) (by exact_mod_cast (by omega : a < 4294967296))]
  rw [toUint32_small (Int.natCast_nonneg s) (by exact_mod_cast (by omega : s < 4294967296))]
  rw [Int.toNat_ofNat, Int.toNat_ofNat, Nat.mod_eq_of_lt hs]
  unfold ofUint32
  rw [if_pos ha]
  rw [Int.fdiv_eq_ediv _ (by positivity)]
  rw [Nat.shiftRight_eq_div_pow]
  rw [show ((2 : Int) ^ s) = (((2 ^ s : Nat) : Int)) by push_cast; ring]
  rw [← Int.natCast_div]

/-- For `1 ≤ v ≤ 2^31`, `nextPowerOfTwo(v)` computes `2^(size (v-1))`
with no 32-bit wrap. -/
theorem nextPowerOfTwo_eq (v : Int) (hv1 : 1 ≤ v) (hv2 : v ≤ 2147483648) :
    nextPowerOfTwo (v : Rat) =
      (((2 ^ Nat.size (v - 1).toNat : Nat) : Int) : Rat) := by
  set x := (v - 1).toNat with hxdef
  have hx31 : x < 2147483648 := by omega
  have hvx : (v : Rat) - 1 = ((x : Int) : Rat) := by
    have : v - 1 = (x : Int) := by omega
    push_cast [← this]
    ring
  have hb1 : x >>> 1 < 2147483648 :=
    lt_of_le_of_lt (by rw [Nat.shiftRight_eq_div_pow]; exact Nat.div_le_self _ _) hx31
  have hx1lt : Nat.lor x (x >>> 1) < 2147483648 := lor_lt_two_pow_31 hx31 hb1
  set x1 := Nat.lor x (x >>> 1) with hx1def
  have hb2 : x1 >>> 2 < 2147483648 :=
    lt_of_le_of_lt (by rw [Nat.shiftRight_eq_div_pow]; exact Nat.div_le_self _ _) hx1lt
  have hx2lt : Nat.lor x1 (x1 >>> 2) < 2147483648 := lor_lt_two_pow_31 hx1lt hb2
  set x2 := Nat.lor x1 (x1 >>> 2) with hx2def
  have hb3 : x2 >>> 4 < 2147483648 :=
    lt_of_le_of_lt (by rw [Nat.shiftRight_eq_div_pow]; exact Nat.div_le_self _ _) hx2lt
  have hx3lt : Nat.lor x2 (x2 >>> 4) < 2147483648 := lor_lt_two_pow_31 hx2lt hb3
  set x3 := Nat.lor x2 (x2 >>> 4) with hx3def
  have hb4 : x3 >>> 8 < 2147483648 :=
    lt_of_le_of_lt (by rw [Nat.shiftRight_eq_div_pow]; exact Nat.div_le_self _ _) hx3lt
  have hx4lt : Nat.lor x3 (x3 >>> 8) < 2147483648 := lor_lt_two_pow_31 hx3lt hb4
  set x4 := Nat.lor x3 (x3 >>> 8) with hx4def
  show jsOr (jsOr (jsOr (jsOr (jsOr ((v : Rat) - 1)
      (jsShr ((v : Rat) - 1) 1)) (jsShr (jsOr ((v : Rat) - 1)
      (jsShr ((v : Rat) - 1) 1)) 2)) _) _) _ + 1 = _
  rw [hvx]
  rw [show (1 : Rat) = (((1 : Nat) : Int) : Rat) by norm_num]
  rw [jsShr_natCast x 1 hx31 (by norm_num)]
  rw [jsOr_natCast x (x >>> 1) hx31 hb1]
  rw [show (2 : Rat) = (((2 : Nat) : Int) : Rat) by norm_num]
  rw [jsShr_natCast x1 2 hx1lt (by norm_num)]
  rw [jsOr_natCast x1 (x1 >>> 2) hx1lt hb2]
  rw [show (4 : Rat) = (((4 : Nat) : Int) : Rat) by norm_num]
  rw [jsShr_natCast x2 4 hx2lt (by norm_num)]
  rw [jsOr_natCast x2 (x2 >>> 4) hx2lt hb3]
  rw [show (8 : Rat) = (((8 : Nat) : Int) : Rat) by norm_num]
  rw [jsShr_natCast x3 8 hx3lt (by norm_num)]
  rw [jsOr_natCast x3 (x3 >>> 8) hx3lt hb4]
  rw [show (16 : Rat) = (((16 : Nat) : Int) : Rat) by norm_num]
  rw [jsShr_natCast x4 16 hx4lt (by norm_num)]
  rw [jsOr_natCast x4 (x4 >>> 16) hx4lt
    (lt_of_le_of_lt (by rw [Nat.shiftRight_eq_div_pow]; exact Nat.div_le_self _ _) hx4lt)]
  rw [show Nat.lor x4 (x4 >>> 16) = natSmear x from rfl]
  rw [natSmear_eq (by omega : x < 2 ^ 32)]
  rw [Nat.cast_sub Nat.one_le_two_pow]
  push_cast
  ring

/-! ### Claim theorems -/

/-- C5: `clamp(val, low, high)` returns `low` if `val < low`, returns `high` if
`val ≥ low` and `val > high`, and otherwise returns `val`; in particular
`clamp(5,0,10) = 5`, `clamp(-1,0,10) = 0` and `clamp(11,0,10) = 10`. -/
theorem clamp_spec :
    (∀ val low high : Rat,
      (val < low → clamp val low high = low) ∧
      (low ≤ val → high < val → clamp val low high = high) ∧
      (low ≤ val → val ≤ high → clamp val low high = val)) ∧
    clamp 5 0 10 = 5 ∧ clamp (-1) 0 10 = 0 ∧ clamp 11 0 10 = 10 := by
  refine ⟨fun val low high => ⟨?_, ?_, ?_⟩, by decide, by decide, by decide⟩
  · intro h; simp [clamp, h]
  · intro h1 h2; simp [clamp, not_lt.mpr h1, h2]
  · intro h1 h2; simp [clamp, not_lt.mpr h1, not_lt.mpr h2]

/-- Witness for C5 at the concrete input `(5, 0, 10)`. -/
theorem clamp_spec_witness : clamp 5 0 10 = 5 :=
  (clamp_spec.1 5 0 10).2.2 (by norm_num) (by norm_num)

/-- C7: `toBeCloseTo(expected, actual, precision)` is true iff
`|expected - actual| < 10^(-precision) / 2`; with the default precision 2,
`toBeCloseTo(10, 10.004, 2)` is true and `toBeCloseTo(10, 10.1, 2)` is false. -/
theorem toBeCloseTo_spec :
    (∀ (expected actual : Rat) (precision : Int),
      toBeCloseTo expected actual precision = true ↔
        |expected - actual| < (10 : Rat) ^ (-precision) / 2) ∧
    toBeCloseTo 10 (10004/1000) 2 = true ∧
    toBeCloseTo 10 (101/10) 2 = false := by
  refine ⟨fun expected actual precision => ?_, by decide, by decide⟩
  simp [toBeCloseTo]

/-- C10: `toBeCloseTo` is symmetric in its first two arguments. -/
theorem toBeCloseTo_symm :
    ∀ (a b : Rat) (precision : Int),
      toBeCloseTo a b precision = toBeCloseTo b a precision := by
  intro a b precision
  simp [toBeCloseTo, abs_sub_comm]

/-- C8: the input module exposes a boolean flag `preventDefault` whose
value at module load is `true`. -/
theorem preventDefault_init : inputModuleInit.preventDefault = true := rfl

/-- C2: `isPowerOfTwo(v)` is true for every exact power of two `v = 2^k`,
and on 32-bit-representable values it is true exactly when the binary
representation of `v` has exactly one set bit, except that `v = 0` is also
accepted by the literal bit-trick `val & (val - 1) == 0`. -/
theorem isPowerOfTwo_spec :
    (∀ v : Int, (∃ k : Nat, v = 2 ^ k) → isPowerOfTwo (v : Rat) = true) ∧
    (∀ v : Int, 0 ≤ v → v < 4294967296 →
      (isPowerOfTwo (v : Rat) = true ↔ v = 0 ∨ ∃ k < 32, v = 2 ^ k)) := by
  constructor
  · rintro v ⟨k, rfl⟩
    exact isPowerOfTwo_pow k
  · intro v h0 h1
    exact isPowerOfTwo_char v h0 h1

/-- Witness for C2 at the concrete inputs `v = 8 = 2^3` and `v = 0`. -/
theorem isPowerOfTwo_spec_witness :
    isPowerOfTwo ((8 : Int) : Rat) = true ∧ isPowerOfTwo ((0 : Int) : Rat) = true :=
  ⟨isPowerOfTwo_spec.1 8 ⟨3, by norm_num⟩,
   (isPowerOfTwo_spec.2 0 (by norm_num) (by norm_num)).mpr (Or.inl rfl)⟩

/-- C9: every value accepted by `isPowerOfFour` is accepted by `isPowerOfTwo`. -/
theorem isPowerOfFour_imp_isPowerOfTwo (v : Int) :
    isPowerOfFour (v : Rat) = true → isPowerOfTwo (v : Rat) = true := by
  intro h
  unfold isPowerOfFour at h
  split at h
  · simp at h
  · split at h
    · rename_i hcond
      have hv : (v : Rat) = 1 := by simpa using hcond
      unfold isPowerOfTwo
      rw [hv]
      decide
    · split at h
      · rename_i hcond
        unfold isPowerOfTwo
        exact hcond
      · simp at h

/-- Witness for C9 at the concrete input `v = 4`. -/
theorem isPowerOfFour_imp_isPowerOfTwo_witness :
    isPowerOfTwo ((4 : Int) : Rat) = true :=
  isPowerOfFour_imp_isPowerOfTwo 4 (by decide)

/-- Counterexample to C3 as stated: `isPowerOfFour(2^33)` returns true because
`2^33` wraps to `0` under `ToInt32`, yet `2^33` is not a power of four. -/
theorem isPowerOfFour_cex :
    isPowerOfFour ((8589934592 : Int) : Rat) = true ∧
      ¬ ∃ k : Nat, (8589934592 : Int) = 4 ^ k := by
  constructor
  · rw [show ((8589934592 : Int) : Rat) = (8589934592 : Rat) by norm_num]
    decide
  · rintro ⟨k, hk⟩
    have hcast : ((4 ^ k : Nat) : Int) = (4 : Int) ^ k := by push_cast; ring
    have hN : (4 : Nat) ^ k = 8589934592 := by omega
    have h4 : (4 : Nat) ^ k = 2 ^ (2 * k) := by rw [pow_mul]; norm_num
    have h33 : (2 : Nat) ^ 33 = 8589934592 := by norm_num
    have heq : (2 : Nat) ^ (2 * k) = 2 ^ 33 := by omega
    have hinj := Nat.pow_right_injective (le_refl 2) heq
    omega

/-- C3 (amended): restricted to 32-bit-representable inputs `0 ≤ v < 2^32`,
`isPowerOfFour(v)` is true iff `v` is a power of four; the particular values
{1, 4, 16, 64, 256} test true and {0, 2, 3, 8, 32} test false. -/
theorem isPowerOfFour_spec :
    (∀ v : Int, 0 ≤ v → v < 4294967296 →
      (isPowerOfFour (v : Rat) = true ↔ ∃ k : Nat, v = 4 ^ k)) ∧
    (isPowerOfFour 1 = true ∧ isPowerOfFour 4 = true ∧ isPowerOfFour 16 = true ∧
      isPowerOfFour 64 = true ∧ isPowerOfFour 256 = true) ∧
    (isPowerOfFour 0 = false ∧ isPowerOfFour 2 = false ∧ isPowerOfFour 3 = false ∧
      isPowerOfFour 8 = false ∧ isPowerOfFour 32 = false) := by
  refine ⟨isPowerOfFour_char, ⟨?_, ?_, ?_, ?_, ?_⟩, ⟨?_, ?_, ?_, ?_, ?_⟩⟩ <;> decide

/-- Witness for C3 (amended) at the concrete input `v = 16 = 4^2`. -/
theorem isPowerOfFour_spec_witness :
    isPowerOfFour ((16 : Int) : Rat) = true :=
  (isPowerOfFour_spec.1 16 (by norm_num) (by norm_num)).mpr ⟨2, by norm_num⟩

/-- Counterexample to C1 as stated: `round` truncates toward zero, so at the
negative input `num = -1.7`, `dec = 0` it returns `-1`, not
`floor(0.5 + num) = -2`. -/
theorem round_cex :
    round (-17/10) 0 ≠
      ((⌊(1/2 : Rat) + (-17/10) * 10 ^ (0 : Nat)⌋ : Int) : Rat) / 10 ^ (0 : Nat) := by
  have h1 : round (-17/10) 0 = -1 := by decide
  have h2 : (⌊(1/2 : Rat) + (-17/10) * 10 ^ (0 : Nat)⌋ : Int) = -2 := by norm_num
  rw [h1, h2]
  norm_num

/-- C1 (amended): for nonnegative `num` such that `0.5 + num * 10^dec` stays
below `2^31` (no `ToInt32` wrap), `round(num, dec)` equals
`floor(0.5 + num * 10^dec) / 10^dec`; in general the source truncates toward
zero instead of flooring. In particular `round(10.33333, 2) = 10.33`. -/
theorem round_spec :
    (∀ (num : Rat) (dec : Nat), 0 ≤ num →
      1/2 + num * 10 ^ dec < 2147483648 →
      round num dec = ((⌊1/2 + num * 10 ^ dec⌋ : Int) : Rat) / 10 ^ dec) ∧
    round (1033333/100000) 2 = 1033/100 := by
  constructor
  · intro num dec h0 h1
    show ((jsToInt32 (1/2 + num * 10 ^ dec) : Int) : Rat) / 10 ^ dec = _
    rw [jsToInt32_small (by positivity) ?_]
    rw [Int.floor_lt]
    exact_mod_cast h1
  · decide

/-- Witness for C1 (amended) at the concrete input `num = 10.33333`, `dec = 2`. -/
theorem round_spec_witness :
    round (1033333/100000) 2 =
      ((⌊(1/2 : Rat) + (1033333/100000) * 10 ^ (2 : Nat)⌋ : Int) : Rat) / 10 ^ (2 : Nat) :=
  round_spec.1 (1033333/100000) 2 (by norm_num) (by norm_num)

/-- Counterexample to C6 as stated: with `min = 0`, `max = 2^32` and uniform
sample `r = 1/2`, the intermediate `r * (max - min) = 2^31` wraps under
`ToInt32`, so `random` returns `-2^31`, which is below `min`. -/
theorem random_cex :
    random (1/2) ((0 : Int) : Rat) ((4294967296 : Int) : Rat) = -2147483648 ∧
      ¬ ((0 : Int) : Rat) ≤ random (1/2) ((0 : Int) : Rat) ((4294967296 : Int) : Rat) := by
  have hval : random (1/2) ((0 : Int) : Rat) ((4294967296 : Int) : Rat) = -2147483648 := by
    rw [show ((0 : Int) : Rat) = 0 by norm_num,
      show ((4294967296 : Int) : Rat) = 4294967296 by norm_num]
    decide
  refine ⟨hval, ?_⟩
  rw [hval]
  norm_num

/-- C6 (amended): for integers `min < max` whose span is at most `2^31`
(no `ToInt32` wrap) and any uniform sample `0 ≤ r < 1`, `random` returns the
integer `floor(r * (max - min)) + min`, which lies in `[min, max)`. -/
theorem random_spec :
    ∀ (mn mx : Int) (r : Rat), mn < mx → mx - mn ≤ 2147483648 →
      0 ≤ r → r < 1 →
      random r (mn : Rat) (mx : Rat) =
          ((⌊r * ((mx : Rat) - (mn : Rat))⌋ + mn : Int) : Rat) ∧
        (mn : Rat) ≤ random r (mn : Rat) (mx : Rat) ∧
        random r (mn : Rat) (mx : Rat) < (mx : Rat) := by
  intro mn mx r hlt hbound hr0 hr1
  have hdpos : (0 : Rat) < (mx : Rat) - (mn : Rat) := by
    have : (mn : Rat) < (mx : Rat) := by exact_mod_cast hlt
    linarith
  have hq0 : 0 ≤ r * ((mx : Rat) - (mn : Rat)) := mul_nonneg hr0 (le_of_lt hdpos)
  have hqlt : r * ((mx : Rat) - (mn : Rat)) < (mx : Rat) - (mn : Rat) := by
    calc r * ((mx : Rat) - (mn : Rat)) < 1 * ((mx : Rat) - (mn : Rat)) :=
          mul_lt_mul_of_pos_right hr1 hdpos
      _ = (mx : Rat) - (mn : Rat) := one_mul _
  have hfl0 : 0 ≤ ⌊r * ((mx : Rat) - (mn : Rat))⌋ := Int.floor_nonneg.mpr hq0
  have hflt : ⌊r * ((mx : Rat) - (mn : Rat))⌋ < mx - mn := by
    rw [Int.floor_lt]
    calc r * ((mx : Rat) - (mn : Rat)) < (mx : Rat) - (mn : Rat) := hqlt
      _ = ((mx - mn : Int) : Rat) := by push_cast; ring
  have hj : jsToInt32 (r * ((mx : Rat) - (mn : Rat))) =
      ⌊r * ((mx : Rat) - (mn : Rat))⌋ :=
    jsToInt32_small hq0 (by omega)
  unfold random
  rw [hj]
  refine ⟨by push_cast; ring, ?_, ?_⟩
  · have h0 : (0 : Rat) ≤ ((⌊r * ((mx : Rat) - (mn : Rat))⌋ : Int) : Rat) := by
      exact_mod_cast hfl0
    linarith
  · have hlt2 : ((⌊r * ((mx : Rat) - (mn : Rat))⌋ : Int) : Rat) <
        ((mx - mn : Int) : Rat) := by exact_mod_cast hflt
    push_cast at hlt2
    linarith

/-- C4: for every integer `1 ≤ v ≤ 10000`, `nextPowerOfTwo(v)` is the smallest
power of two that is at least `v`; in particular it is at least `v` and is
itself a power of two. -/
theorem nextPowerOfTwo_spec :
    ∀ v : Int, 1 ≤ v → v ≤ 10000 →
      ∃ k : Nat, nextPowerOfTwo (v : Rat) = (2 : Rat) ^ k ∧
        (v : Rat) ≤ (2 : Rat) ^ k ∧
        ∀ j : Nat, (v : Rat) ≤ (2 : Rat) ^ j → (2 : Rat) ^ k ≤ (2 : Rat) ^ j := by
  intro v h1 h2
  have heq := nextPowerOfTwo_eq v h1 (by omega)
  set x := (v - 1).toNat with hxdef
  refine ⟨Nat.size x, ?_, ?_, ?_⟩
  · rw [heq]
    push_cast
    ring
  · have hlt : x < 2 ^ Nat.size x := Nat.lt_size_self x
    have hcast : ((2 ^ Nat.size x : Nat) : Int) = 2 ^ Nat.size x := by push_cast; ring
    have hInt : v ≤ (2 : Int) ^ Nat.size x := by omega
    exact_mod_cast hInt
  · intro j hj
    have hjInt : v ≤ (2 : Int) ^ j := by exact_mod_cast hj
    have hcastj : ((2 ^ j : Nat) : Int) = (2 : Int) ^ j := by push_cast; ring
    have hxj : x < 2 ^ j := by omega
    have hsj : Nat.size x ≤ j := Nat.size_le.mpr hxj
    have hle : (2 : Nat) ^ Nat.size x ≤ 2 ^ j := Nat.pow_le_pow_right (by norm_num) hsj
    exact_mod_cast hle

/-- Witness for C4 at the concrete input `v = 17` (next power of two is 32). -/
theorem nextPowerOfTwo_spec_witness :
    ∃ k : Nat, nextPowerOfTwo ((17 : Int) : Rat) = (2 : Rat) ^ k ∧
        ((17 : Int) : Rat) ≤ (2 : Rat) ^ k ∧
        ∀ j : Nat, ((17 : Int) : Rat) ≤ (2 : Rat) ^ j →
          (2 : Rat) ^ k ≤ (2 : Rat) ^ j :=
  nextPowerOfTwo_spec 17 (by norm_num) (by norm_num)

/-- Witness for C6 (amended) at the concrete input `min = 5`, `max = 10`,
`r = 1/2`. -/
theorem random_spec_witness :
    random (1/2) ((5 : Int) : Rat) ((10 : Int) : Rat) =
        ((⌊(1/2 : Rat) * (((10 : Int) : Rat) - ((5 : Int) : Rat))⌋ + 5 : Int) : Rat) ∧
      ((5 : Int) : Rat) ≤ random (1/2) ((5 : Int) : Rat) ((10 : Int) : Rat) ∧
      random (1/2) ((5 : Int) : Rat) ((10 : Int) : Rat) < ((10 : Int) : Rat) :=
  random_spec 5 10 (1/2) (by norm_num) (by norm_num) (by norm_num) (by norm_num)

end MelonJS
